import Mathlib

/-!
Verification development for the e4code editing-intelligence core
(search/replace engine, bracket matcher, change tracking, debounced
incremental highlighting, style-tag cache).

The document is modelled as a `List Char`; positions are absolute
character offsets, as produced by `TextIter::offset`.  GTK and regex-crate
primitives used by the code are external collaborators; they are modelled
here as pure functions over that representation:

* `findFrom` models `TextIter::forward_search` (first match at or after
  the given offset, with optional case folding for `CASE_INSENSITIVE`);
* `rfindAux`/`backward_search` model `TextIter::backward_search` (closest
  match ending at or before the given offset);
* `startsWord`/`endsWord` model the pango word-boundary queries, with
  alphanumeric characters as word constituents;
* the regex crate is modelled for literal patterns: a pattern containing a
  metacharacter fails to compile (faithful on the patterns exercised here:
  `a` is valid, `(` is rejected by `Regex::new`), a literal pattern
  matches by plain substring search, with the `(?i)` inline flag modelled
  as a case-folding bit.

Loops of the source that advance a `TextIter` become structural or
fuel-based recursions; the fuel bounds are chosen so that the fuel never
runs out on the loops the source actually executes (the source loops for
an empty needle never terminate and are guarded by the callers, which
refuse an empty search text).
-/

namespace E4Code

/-! ## Text primitives -/

/-- Case folding used to model `TextSearchFlags::CASE_INSENSITIVE`:
when `matchCase` is false both sides are compared lower-cased. -/
def foldCase (matchCase : Bool) (c : Char) : Char :=
  if matchCase then c else c.toLower

/-- The pattern `pat` occurs in `s` at offset `i` (under the case flag). -/
def matchAt (matchCase : Bool) (s pat : List Char) (i : Nat) : Bool :=
  ((s.drop i).take pat.length).map (foldCase matchCase) == pat.map (foldCase matchCase)

/-- Auxiliary scan for `findFrom`: try offsets `i, i + 1, ...`; `rem` is the
exact number of offsets left to inspect, so the scan is structural. -/
def findFromAux (matchCase : Bool) (s pat : List Char) : Nat → Nat → Option Nat
  | _, 0 => none
  | i, rem + 1 =>
    if i + pat.length ≤ s.length then
      if matchAt matchCase s pat i then some i
      else findFromAux matchCase s pat (i + 1) rem
    else none

/-- Model of `TextIter::forward_search`: offset of the first occurrence of
`pat` at or after offset `i`, if any. -/
def findFrom (matchCase : Bool) (s pat : List Char) (i : Nat) : Option Nat :=
  findFromAux matchCase s pat i (s.length + 1 - i)

/-- Descending scan: greatest occurrence start at or below `j`. -/
def rfindAux (matchCase : Bool) (s pat : List Char) : Nat → Option Nat
  | 0 =>
    if pat.length ≤ s.length && matchAt matchCase s pat 0 then some 0 else none
  | j + 1 =>
    if j + 1 + pat.length ≤ s.length && matchAt matchCase s pat (j + 1) then some (j + 1)
    else rfindAux matchCase s pat j

/-- Model of `TextIter::backward_search`: the closest occurrence of `pat`
that ends at or before offset `c`. -/
def backward_search (matchCase : Bool) (s pat : List Char) (c : Nat) : Option (Nat × Nat) :=
  if pat.length ≤ c then
    (rfindAux matchCase s pat (c - pat.length)).map (fun a => (a, a + pat.length))
  else none

/-- Word constituents for the pango word-boundary model. -/
def isWordChar (c : Char) : Bool := c.isAlphanum

/-- The character at offset `i` is a word character (false past the end). -/
def wordCharAt (s : List Char) (i : Nat) : Bool :=
  match s[i]? with
  | some c => isWordChar c
  | none => false

/-- Model of `TextIter::starts_word` at offset `i`. -/
def startsWord (s : List Char) (i : Nat) : Bool :=
  wordCharAt s i && (i == 0 || !wordCharAt s (i - 1))

/-- Model of `TextIter::ends_word` at offset `i`. -/
def endsWord (s : List Char) (i : Nat) : Bool :=
  (i != 0) && wordCharAt s (i - 1) && !wordCharAt s i

/-- A whole-word occurrence of `pat` at offset `k`: an in-bounds substring
match whose two ends both lie on word boundaries. -/
def wholeWordAt (matchCase : Bool) (s pat : List Char) (k : Nat) : Bool :=
  decide (k + pat.length ≤ s.length) && matchAt matchCase s pat k &&
    startsWord s k && endsWord s (k + pat.length)

/-! ## Regex model (external collaborator, literal patterns) -/

/-- Characters with a special meaning in the regex syntax.  The model
covers literal patterns only: a pattern containing any of these fails to
compile.  (This is exact on the inputs exercised by the development: a
plain-text pattern such as `a` compiles, and `(` is rejected by
`Regex::new` as an unclosed group.) -/
def regexMeta (c : Char) : Bool :=
  c = '(' || c = ')' || c = '[' || c = ']' || c = '|' || c = '*' ||
    c = '+' || c = '?' || c = '.' || c = '^' || c = '$' || c = '\\'

/-- A compiled (literal) regex: the pattern characters plus the
case-insensitivity bit contributed by the `(?i)` inline flag. -/
structure RegexM where
  pat : List Char
  ci : Bool
deriving DecidableEq, Repr

/-- Model of `compile_regex` from `search.rs`: prepends `(?i)` when
case-insensitive matching is requested, then compiles. -/
def compile_regex (pattern : List Char) (matchCase : Bool) : Except Unit RegexM :=
  if pattern.any regexMeta then .error () else .ok ⟨pattern, !matchCase⟩

/-- Model of the bare `Regex::new(&search_text)` validity check used by the
dialog response handler in `actions.rs`. -/
def regexCompileFails (pattern : List Char) : Bool := pattern.any regexMeta

/-- Model of `Regex::find` for a compiled literal pattern. -/
def regexFind (r : RegexM) (t : List Char) : Option (Nat × Nat) :=
  (findFrom (!r.ci) t r.pat 0).map (fun j => (j, j + r.pat.length))

/-- Model of `Regex::replace` (first match, literal replacement text). -/
def regexReplace (r : RegexM) (t repl : List Char) : List Char :=
  match regexFind r t with
  | some (x, y) => t.take x ++ repl ++ t.drop y
  | none => t

/-! ## Search engine (`search.rs`) -/

/-- Model of `search_text_in_buffer`: one forward search from `i`. -/
def search_text_in_buffer (matchCase : Bool) (s pat : List Char) (i : Nat) :
    Option (Nat × Nat) :=
  (findFrom matchCase s pat i).map (fun j => (j, j + pat.length))

/-- Plain-mode `find_next` (the final branch of `find_next_advanced`):
search one position past the cursor, then wrap once from the start. -/
def find_next_plain (s pat : List Char) (cursor : Nat) (matchCase : Bool) :
    Option (Nat × Nat) :=
  match search_text_in_buffer matchCase s pat (cursor + 1) with
  | some m => some m
  | none => search_text_in_buffer matchCase s pat 0

/-- Plain-mode `find_previous`: search backward from the cursor itself,
then wrap once from the document end. -/
def find_previous_plain (s pat : List Char) (cursor : Nat) (matchCase : Bool) :
    Option (Nat × Nat) :=
  match backward_search matchCase s pat cursor with
  | some m => some m
  | none => backward_search matchCase s pat s.length

/-- The whole-word forward scan of `search_text_in_buffer_whole_word`:
take the next plain candidate, accept it if both ends are word boundaries,
otherwise advance the scan start by one character and retry.  `fuel`
bounds the number of retries (the wrapper passes enough for the loop,
which stops once the scan start passes the end of the buffer). -/
def searchWWAux (matchCase : Bool) (s pat : List Char) : Nat → Nat → Option (Nat × Nat)
  | _, 0 => none
  | i, fuel + 1 =>
    match findFrom matchCase s pat i with
    | none => none
    | some j =>
      if startsWord s j && endsWord s (j + pat.length) then some (j, j + pat.length)
      else if i < s.length then searchWWAux matchCase s pat (i + 1) fuel
      else none

/-- Model of `search_text_in_buffer_whole_word`. -/
def search_text_in_buffer_whole_word (matchCase : Bool) (s pat : List Char) (i : Nat) :
    Option (Nat × Nat) :=
  searchWWAux matchCase s pat i (s.length + 1)

/-- Model of `search_text_in_buffer_whole_word_backward`: backward search
from `c`, stepping the scan start back one character on rejection. -/
def searchWWBack (matchCase : Bool) (s pat : List Char) : Nat → Option (Nat × Nat)
  | 0 =>
    match backward_search matchCase s pat 0 with
    | none => none
    | some (a, b) =>
      if startsWord s a && endsWord s b then some (a, b) else none
  | c + 1 =>
    match backward_search matchCase s pat (c + 1) with
    | none => none
    | some (a, b) =>
      if startsWord s a && endsWord s b then some (a, b)
      else searchWWBack matchCase s pat c

/-- Whole-word `find_next`: from one past the cursor, wrapping once. -/
def find_next_whole_word (s pat : List Char) (cursor : Nat) (matchCase : Bool) :
    Option (Nat × Nat) :=
  match search_text_in_buffer_whole_word matchCase s pat (cursor + 1) with
  | some m => some m
  | none => search_text_in_buffer_whole_word matchCase s pat 0

/-- Whole-word `find_previous`: from the cursor, wrapping once from the end. -/
def find_previous_whole_word (s pat : List Char) (cursor : Nat) (matchCase : Bool) :
    Option (Nat × Nat) :=
  match searchWWBack matchCase s pat cursor with
  | some m => some m
  | none => searchWWBack matchCase s pat s.length

/-- Model of `find_next_regex`: compile (returning `none` on failure),
search the text after the cursor, then wrap once over the whole text. -/
def find_next_regex (s pat : List Char) (cursor : Nat) (matchCase : Bool) :
    Option (Nat × Nat) :=
  match compile_regex pat matchCase with
  | .error _ => none
  | .ok r =>
    match regexFind r (s.drop (cursor + 1)) with
    | some (x, y) => some (cursor + 1 + x, cursor + 1 + y)
    | none =>
      match regexFind r s with
      | some (x, y) => some (x, y)
      | none => none

/-- Non-overlapping match collection: repeated `find` on the remaining
text, recording absolute offsets and resuming past each match (the loop
of `replace_all_regex`, also the behaviour of `find_iter`). -/
def collectRegexAux (r : RegexM) (s : List Char) : Nat → Nat → List (Nat × Nat)
  | _, 0 => []
  | i, fuel + 1 =>
    if i < s.length then
      match regexFind r (s.drop i) with
      | some (x, y) => (i + x, i + y) :: collectRegexAux r s (i + y) fuel
      | none => []
    else []

/-- Model of `find_previous_regex`: last match before the cursor, wrapping
once to the last match in the whole text. -/
def find_previous_regex (s pat : List Char) (cursor : Nat) (matchCase : Bool) :
    Option (Nat × Nat) :=
  match compile_regex pat matchCase with
  | .error _ => none
  | .ok r =>
    match (collectRegexAux r (s.take cursor) 0 (s.length + 1)).getLast? with
    | some m => some m
    | none => (collectRegexAux r s 0 (s.length + 1)).getLast?

/-- Dispatch of `find_next_advanced` over the three match modes. -/
def find_next_advanced (s pat : List Char) (cursor : Nat) (matchCase wholeWord useRegex : Bool) :
    Option (Nat × Nat) :=
  if useRegex then find_next_regex s pat cursor matchCase
  else if wholeWord then find_next_whole_word s pat cursor matchCase
  else find_next_plain s pat cursor matchCase

/-- Dispatch of `find_previous_advanced` over the three match modes. -/
def find_previous_advanced (s pat : List Char) (cursor : Nat) (matchCase wholeWord useRegex : Bool) :
    Option (Nat × Nat) :=
  if useRegex then find_previous_regex s pat cursor matchCase
  else if wholeWord then find_previous_whole_word s pat cursor matchCase
  else find_previous_plain s pat cursor matchCase

/-! ## Replace engine (`search.rs`) -/

/-- Delete the range `[a, b)` and insert `repl` in its place. -/
def replaceRange (s : List Char) (a b : Nat) (repl : List Char) : List Char :=
  s.take a ++ repl ++ s.drop b

/-- Collection phase of `replace_all_simple`: forward searches from the
start, each resuming at the end of the previous match, recording
`(start, end)` offsets without mutating the text. -/
def collectAux (matchCase : Bool) (s pat : List Char) : Nat → Nat → List (Nat × Nat)
  | _, 0 => []
  | i, fuel + 1 =>
    match findFrom matchCase s pat i with
    | none => []
    | some j => (j, j + pat.length) :: collectAux matchCase s pat (j + pat.length) fuel

/-- All matches of `pat` in `s`, scanned left to right without overlap. -/
def collect_all (matchCase : Bool) (s pat : List Char) : List (Nat × Nat) :=
  collectAux matchCase s pat 0 (s.length + 1)

/-- Collection phase of `replace_all_whole_word`: like `collect_all` but a
candidate is recorded only if whole-word; the scan resumes at the end of
the candidate in either case. -/
def collectWWAux (matchCase : Bool) (s pat : List Char) : Nat → Nat → List (Nat × Nat)
  | _, 0 => []
  | i, fuel + 1 =>
    match findFrom matchCase s pat i with
    | none => []
    | some j =>
      if startsWord s j && endsWord s (j + pat.length) then
        (j, j + pat.length) :: collectWWAux matchCase s pat (j + pat.length) fuel
      else collectWWAux matchCase s pat (j + pat.length) fuel

/-- Replacement phase shared by the replace-all variants: iterate the
collected `(start, end)` list in reverse (highest offset first), deleting
each range and inserting the replacement, counting as it goes. -/
def applyReplacements (s repl : List Char) (ms : List (Nat × Nat)) : List Char × Nat :=
  ms.reverse.foldl (fun acc m => (replaceRange acc.1 m.1 m.2 repl, acc.2 + 1)) (s, 0)

/-- Model of `replace_all_simple`: collect every match, then replace in
reverse offset order. -/
def replace_all_simple (s pat repl : List Char) (matchCase : Bool) : List Char × Nat :=
  applyReplacements s repl (collect_all matchCase s pat)

/-- Model of `replace_all_whole_word`. -/
def replace_all_whole_word (s pat repl : List Char) (matchCase : Bool) : List Char × Nat :=
  applyReplacements s repl (collectWWAux matchCase s pat 0 (s.length + 1))

/-- Model of `replace_all_regex`: on compile failure return 0 with the
text unchanged; otherwise collect all matches over the live text, then
replace in reverse order, re-reading each matched range and passing it
through `Regex::replace`. -/
def replace_all_regex (s pat repl : List Char) (matchCase : Bool) : List Char × Nat :=
  match compile_regex pat matchCase with
  | .error _ => (s, 0)
  | .ok r =>
    let ms := collectRegexAux r s 0 (s.length + 1)
    ms.reverse.foldl
      (fun acc m =>
        (replaceRange acc.1 m.1 m.2 (regexReplace r ((acc.1.drop m.1).take (m.2 - m.1)) repl),
          acc.2 + 1))
      (s, 0)

/-- Dispatch of `replace_all_advanced` over the three match modes. -/
def replace_all_advanced (s pat repl : List Char) (matchCase wholeWord useRegex : Bool) :
    List Char × Nat :=
  if useRegex then replace_all_regex s pat repl matchCase
  else if wholeWord then replace_all_whole_word s pat repl matchCase
  else replace_all_simple s pat repl matchCase

/-- Model of `replace_selection_advanced`: with no selection, do nothing.
In regex mode the selected text is matched against the compiled pattern
and replaced through `Regex::replace`; if the pattern fails to compile the
code falls back to a plain replacement of the selection. -/
def replace_selection_advanced (s : List Char) (selection : Option (Nat × Nat))
    (searchText replText : List Char) (useRegex : Bool) : List Char :=
  match selection with
  | none => s
  | some (a, b) =>
    if useRegex then
      match compile_regex searchText true with
      | .ok r =>
        let matched := (s.drop a).take (b - a)
        match regexFind r matched with
        | some _ => replaceRange s a b (regexReplace r matched replText)
        | none => s
      | .error _ => replaceRange s a b replText
    else replaceRange s a b replText

/-- Reference (specification-side) simultaneous replacement: given the
pre-collected, left-to-right disjoint `(start, end)` list, emit the gap
before each match, then the replacement, then continue after the match.
Used to state what the reverse-order replacement phase computes. -/
def specReplace (s repl : List Char) : Nat → List (Nat × Nat) → List Char
  | i, [] => s.drop i
  | i, (a, b) :: ms => (s.drop i).take (a - i) ++ repl ++ specReplace s repl b ms

/-- The `(start, end)` pairs are in bounds, ordered, and pairwise disjoint,
with the first one starting at or after `i`. -/
def ChainFrom (len : Nat) : Nat → List (Nat × Nat) → Prop
  | _, [] => True
  | i, (a, b) :: ms => i ≤ a ∧ a ≤ b ∧ b ≤ len ∧ ChainFrom len b ms

/-! ## Bracket matcher (`syntax_highlighting.rs`) -/

/-- The character at offset `i`, or NUL past the end (as
`TextIter::char` yields a non-bracket sentinel at the buffer end). -/
def charAt (s : List Char) (i : Nat) : Char := s.getD i (Char.ofNat 0)

/-- Classify a seed character: its (open, close) pair and the scan
direction (`true` = forward, for an opening bracket). -/
def bracketInfo (c : Char) : Option (Char × Char × Bool) :=
  if c = '(' then some ('(', ')', true)
  else if c = ')' then some ('(', ')', false)
  else if c = '[' then some ('[', ']', true)
  else if c = ']' then some ('[', ']', false)
  else if c = '{' then some ('{', '}', true)
  else if c = '}' then some ('{', '}', false)
  else none

/-- Forward depth scan over the characters after the seed: the depth
counter increments on `inc`, decrements on `dec`, and the scan stops at
the first position where it reaches zero.  The backward scan of the
source is this same loop run over the reversed text before the seed with
the two bracket classes swapped. -/
def scanDepth (inc dec : Char) : List Char → Int → Option Nat
  | [], _ => none
  | c :: t, d =>
    if c = inc then (scanDepth inc dec t (d + 1)).map (· + 1)
    else if c = dec then
      if d - 1 = 0 then some 0 else (scanDepth inc dec t (d - 1)).map (· + 1)
    else (scanDepth inc dec t d).map (· + 1)

/-- Model of `find_matching_bracket`: classify the seed character, then
scan forward (opening seed) or backward (closing seed) with the depth
counter starting at 1. -/
def find_matching_bracket (s : List Char) (i : Nat) : Option Nat :=
  match bracketInfo (charAt s i) with
  | none => none
  | some (ob, cb, forward) =>
    if forward then (scanDepth ob cb (s.drop (i + 1)) 1).map (fun m => i + 1 + m)
    else (scanDepth cb ob ((s.take i).reverse) 1).map (fun m => i - 1 - m)

/-- Reference depth value after scanning positions `0..m` of `t`: the
start depth plus the number of `inc` characters seen minus the number of
`dec` characters seen. -/
def depthCount (inc dec : Char) (t : List Char) (d : Int) (m : Nat) : Int :=
  d + ((t.take (m + 1)).count inc : Int) - ((t.take (m + 1)).count dec : Int)

/-! ## Style tags (`syntax_highlighting.rs`) -/

/-- Lowercase hex digit, as produced by the `{:02x}` format. -/
def hexDigitChar (n : Nat) : Char :=
  if n < 10 then Char.ofNat (48 + n) else Char.ofNat (87 + n)

/-- Two-digit lowercase hex rendering of a byte. -/
def hex2 (n : Nat) : List Char :=
  [hexDigitChar (n / 16 % 16), hexDigitChar (n % 16)]

/-- A syntect style as used for tag naming: foreground and background
RGBA bytes. -/
structure SynStyle where
  fgr : Nat
  fgg : Nat
  fgb : Nat
  fga : Nat
  bgr : Nat
  bgg : Nat
  bgb : Nat
  bga : Nat
deriving DecidableEq, Repr

/-- The deterministic tag key derived from a style's colour bytes
(the `fg_RRGGBBAA_bg_RRGGBBAA` name built by both highlighting passes). -/
def tagKeyName (st : SynStyle) : List Char :=
  "fg_".data ++ hex2 st.fgr ++ hex2 st.fgg ++ hex2 st.fgb ++ hex2 st.fga ++
    "_bg_".data ++ hex2 st.bgr ++ hex2 st.bgg ++ hex2 st.bgb ++ hex2 st.bga

/-- Tag-table lookup-or-create: a new tag is added only when no tag with
that key exists (the `tag_table.lookup` / `TextTag::new` / `add` step). -/
def lookupOrCreate (table : List (List Char)) (key : List Char) : List (List Char) :=
  if key ∈ table then table else table ++ [key]

/-- One highlighting pass over a span list: every span's style key is
looked up, creating the tag only on a miss.  Both the full and the
incremental pass apply styles through this same logic. -/
def applyStylesPass (table : List (List Char)) (styles : List SynStyle) : List (List Char) :=
  styles.foldl (fun t st => lookupOrCreate t (tagKeyName st)) table

/-! ## Tokenizer and incremental highlighting
(`syntax_highlighting.rs`, `incremental_highlighting.rs`) -/

/-- Run the stateful line tokenizer from the given state over all lines,
collecting each line's styling (`HighlightLines::highlight_line` threaded
line by line). -/
def runFullAux {σ τ : Type} (tok : σ → List Char → σ × τ) : σ → List (List Char) → List τ
  | _, [] => []
  | st, l :: ls => (tok st l).2 :: runFullAux tok (tok st l).1 ls

/-- The windowed pass over `(line, old tag)` pairs: every line is parsed
to carry the tokenizer state forward, but the computed styling replaces
the old one only for line numbers inside `[a, b]`. -/
def incrAux {σ τ : Type} (tok : σ → List Char → σ × τ) :
    σ → Nat → List (List Char × τ) → Nat → Nat → List τ
  | _, _, [], _, _ => []
  | st, i, (l, t) :: rest, a, b =>
    (if a ≤ i ∧ i ≤ b then (tok st l).2 else t) :: incrAux tok (tok st l).1 (i + 1) rest a b

/-- Model of `apply_incremental_syntax_highlighting`: clamp the requested
window to the line bounds (and bail out if it is empty), then run the
tokenizer from line 0 applying styles only inside the window; existing
tags are replaced only there. -/
def apply_incremental_syntax_highlighting {σ τ : Type} (tok : σ → List Char → σ × τ)
    (s0 : σ) (lines : List (List Char)) (old : List τ) (startLine endLine : Int) : List τ :=
  let a := max startLine 0
  let b := min endLine ((lines.length : Int) - 1)
  if a > b then old
  else incrAux tok s0 0 (lines.zip old) a.toNat b.toNat

/-- The padded window computed by `apply_incremental_highlighting` from a
non-empty dirty line set: `[min − 3, max + 3]` clamped to the document's
line bounds (the `unwrap_or 0` mirrors the source's `Option` handling). -/
def highlightWindow (dirty : Finset Nat) (n : Nat) : Int × Int :=
  let minLine : Nat := dirty.min.untop' 0
  let maxLine : Nat := min (dirty.max.unbot' 0) (n - 1)
  (max ((minLine : Int) - 3) 0, min ((maxLine : Int) + 3) ((n : Int) - 1))

/-- Model of `apply_incremental_highlighting`: nothing to do when no line
is dirty; otherwise highlight the padded window. -/
def apply_incremental_highlighting {σ τ : Type} (tok : σ → List Char → σ × τ)
    (s0 : σ) (lines : List (List Char)) (old : List τ) (dirty : Finset Nat) : List τ :=
  if dirty = ∅ then old
  else
    let w := highlightWindow dirty lines.length
    apply_incremental_syntax_highlighting tok s0 lines old w.1 w.2

/-! ## Change tracking and debounce (`main.rs`) -/

/-- The quiet period armed by the `connect_changed` handler, in
milliseconds (`Duration::from_millis(30)`). -/
def debounceQuietMillis : Nat := 30

/-- The editor-side state relevant to debounced re-highlighting: the
single pending-timer handle (`syntax_highlight_timer`, one per
application), each buffer's dirty-line set (`change_trackers`), the
count of highlighting passes performed per buffer (an observer of the
timer callback), and each buffer's line count.  Buffers are identified
by an opaque `Nat`. -/
structure EditorState where
  timer : Option Nat
  dirty : Nat → Finset Nat
  passes : Nat → Nat
  lineCount : Nat → Nat

/-- Model of the `connect_changed` handler: insert every line index
`0 .. line_count − 1` into the buffer's dirty set (regardless of what the
edit touched), cancel any pending timer, and arm a new one for this
buffer. -/
def onChanged (st : EditorState) (d : Nat) : EditorState :=
  { st with
    dirty := Function.update st.dirty d (st.dirty d ∪ Finset.range (st.lineCount d))
    timer := some d }

/-- Model of the timer callback firing: run the incremental pass when the
buffer has pending changes, clear the buffer's dirty set, and clear the
timer handle. -/
def fireTimer (st : EditorState) : EditorState :=
  match st.timer with
  | none => st
  | some d =>
    { st with
      passes := Function.update st.passes d
        (st.passes d + (if (st.dirty d).Nonempty then 1 else 0))
      dirty := Function.update st.dirty d ∅
      timer := none }

/-- A burst of `n` edits on buffer `d`, each arriving before the pending
timer fires. -/
def editBurst (st : EditorState) (d : Nat) : Nat → EditorState
  | 0 => st
  | n + 1 => onChanged (editBurst st d n) d

/-! ## Search dialog response handler (`actions.rs`) -/

/-- The status readout of the search dialog. -/
inductive DialogStatus
  | blank
  | invalidRegex
  | textNotFound
  | replacedCount (n : Nat)
deriving DecidableEq, Repr

/-- The five dialog responses. -/
inductive SearchResponse
  | respFindNext
  | respFindPrev
  | respReplace
  | respReplaceAll
  | respCancel
deriving DecidableEq, Repr

/-- The dialog-visible state: the buffer text, the cursor offset, the
current selection and the status label. -/
structure DialogState where
  buffer : List Char
  cursor : Nat
  selection : Option (Nat × Nat)
  status : DialogStatus
deriving DecidableEq, Repr

/-- Model of the `connect_response` handler of the search/replace dialog:
in regex mode a non-empty pattern is validated first, and on a compile
failure the handler reports the invalid pattern and returns before
attempting any operation.  (Cursor motion performed by `select_range` is
modelled as moving the cursor to the match start; the cursor position
after a selection replacement is kept, an abstraction of the GTK mark
behaviour that the claims settled here do not depend on.) -/
def handleSearchResponse (st : DialogState) (resp : SearchResponse)
    (searchText replText : List Char) (matchCase wholeWord useRegex : Bool) : DialogState :=
  if useRegex = true ∧ searchText ≠ [] ∧ regexCompileFails searchText = true then
    { st with status := .invalidRegex }
  else
    match resp with
    | .respFindNext =>
      if searchText = [] then st
      else
        match find_next_advanced st.buffer searchText st.cursor matchCase wholeWord useRegex with
        | some (a, b) => { st with selection := some (a, b), cursor := a, status := .blank }
        | none => { st with status := .textNotFound }
    | .respFindPrev =>
      if searchText = [] then st
      else
        match find_previous_advanced st.buffer searchText st.cursor matchCase wholeWord useRegex with
        | some (a, b) => { st with selection := some (a, b), cursor := a, status := .blank }
        | none => { st with status := .textNotFound }
    | .respReplace =>
      if searchText = [] then st
      else
        let buf := replace_selection_advanced st.buffer st.selection searchText replText useRegex
        match find_next_advanced buf searchText st.cursor matchCase wholeWord useRegex with
        | some (a, b) =>
          { st with buffer := buf, selection := some (a, b), cursor := a, status := .blank }
        | none => { st with buffer := buf, status := .textNotFound }
    | .respReplaceAll =>
      if searchText = [] then st
      else
        let r := replace_all_advanced st.buffer searchText replText matchCase wholeWord useRegex
        { st with buffer := r.1, status := .replacedCount r.2 }
    | .respCancel => st

/-- A concrete editor state used by the witnesses: no pending timer, no
dirty lines, no passes performed, five lines in every buffer. -/
def sampleEditorState : EditorState :=
  ⟨none, fun _ => ∅, fun _ => 0, fun _ => 5⟩

/-- A concrete stateful line tokenizer used by the witness: the state is
the running character count, and each line's styling is that count, so a
line's styling depends on everything before it. -/
def sampleTok (st : Nat) (l : List Char) : Nat × Nat := (st + l.length + 1, st)

/-- Lines of the witness document. -/
def sampleLines : List (List Char) :=
  ["aa".data, "b".data, "".data, "cccc".data, "d".data, "ee".data,
    "f".data, "gg".data, "h".data, "ii".data, "j".data, "kk".data]

/-! ## Lemmas: forward and backward substring search -/

theorem matchAt_eq_false (mc : Bool) (s pat : List Char) (i : Nat)
    (h : ¬ matchAt mc s pat i = true) : matchAt mc s pat i = false := by
  revert h; cases matchAt mc s pat i <;> simp

theorem findFromAux_some_iff (mc : Bool) (s pat : List Char) :
    ∀ rem i j, s.length + 1 - i ≤ rem →
      (findFromAux mc s pat i rem = some j ↔
        (i ≤ j ∧ j + pat.length ≤ s.length ∧ matchAt mc s pat j = true ∧
          ∀ k, i ≤ k → k < j → matchAt mc s pat k = false)) := by
  intro rem
  induction rem with
  | zero =>
    intro i j h
    simp only [findFromAux]
    constructor
    · intro h'; cases h'
    · rintro ⟨hij, hjL, -, -⟩; omega
  | succ rem ih =>
    intro i j h
    simp only [findFromAux]
    by_cases h1 : i + pat.length ≤ s.length
    · rw [if_pos h1]
      by_cases hm : matchAt mc s pat i = true
      · rw [if_pos hm]
        constructor
        · rintro h'; cases h'
          exact ⟨le_refl i, h1, hm, fun k hk1 hk2 => absurd hk2 (by omega)⟩
        · rintro ⟨hij, hjL, hmj, hmin⟩
          rcases Nat.eq_or_lt_of_le hij with rfl | hlt
          · rfl
          · exact absurd (hmin i (le_refl i) hlt) (by simp [hm])
      · have hm' : matchAt mc s pat i = false := matchAt_eq_false mc s pat i hm
        rw [if_neg hm, ih (i + 1) j (by omega)]
        constructor
        · rintro ⟨hij, hjL, hmj, hmin⟩
          refine ⟨by omega, hjL, hmj, fun k hk1 hk2 => ?_⟩
          rcases Nat.eq_or_lt_of_le hk1 with rfl | hlt
          · exact hm'
          · exact hmin k (by omega) hk2
        · rintro ⟨hij, hjL, hmj, hmin⟩
          have hne : i ≠ j := fun e => by rw [e] at hm'; rw [hm'] at hmj; cases hmj
          exact ⟨by omega, hjL, hmj, fun k hk1 hk2 => hmin k (by omega) hk2⟩
    · rw [if_neg h1]
      constructor
      · intro h'; cases h'
      · rintro ⟨hij, hjL, -, -⟩; omega

theorem findFrom_some_iff (mc : Bool) (s pat : List Char) (i j : Nat) :
    findFrom mc s pat i = some j ↔
      (i ≤ j ∧ j + pat.length ≤ s.length ∧ matchAt mc s pat j = true ∧
        ∀ k, i ≤ k → k < j → matchAt mc s pat k = false) :=
  findFromAux_some_iff mc s pat (s.length + 1 - i) i j (le_refl _)

theorem findFromAux_isSome (mc : Bool) (s pat : List Char) :
    ∀ rem i, s.length + 1 - i ≤ rem →
      ∀ j, i ≤ j → j + pat.length ≤ s.length → matchAt mc s pat j = true →
        (findFromAux mc s pat i rem).isSome = true := by
  intro rem
  induction rem with
  | zero => intro i h j hij hjL hm; omega
  | succ rem ih =>
    intro i h j hij hjL hm
    simp only [findFromAux]
    rw [if_pos (by omega)]
    by_cases hmi : matchAt mc s pat i = true
    · rw [if_pos hmi]; rfl
    · rw [if_neg hmi]
      rcases Nat.eq_or_lt_of_le hij with rfl | hlt
      · exact absurd hm hmi
      · exact ih (i + 1) (by omega) j (by omega) hjL hm

theorem findFrom_isSome (mc : Bool) (s pat : List Char) (i j : Nat)
    (hij : i ≤ j) (hjL : j + pat.length ≤ s.length) (hm : matchAt mc s pat j = true) :
    (findFrom mc s pat i).isSome = true :=
  findFromAux_isSome mc s pat (s.length + 1 - i) i (le_refl _) j hij hjL hm

theorem findFrom_none (mc : Bool) (s pat : List Char) (i : Nat)
    (hf : findFrom mc s pat i = none) :
    ∀ j, i ≤ j → j + pat.length ≤ s.length → matchAt mc s pat j = false := by
  intro j hij hjL
  by_cases hm : matchAt mc s pat j = true
  · have := findFrom_isSome mc s pat i j hij hjL hm
    rw [hf] at this; cases this
  · exact matchAt_eq_false mc s pat j hm

theorem rfindAux_some_iff (mc : Bool) (s pat : List Char) :
    ∀ j a, rfindAux mc s pat j = some a ↔
      (a ≤ j ∧ a + pat.length ≤ s.length ∧ matchAt mc s pat a = true ∧
        ∀ k, a < k → k ≤ j → (k + pat.length ≤ s.length → matchAt mc s pat k = false)) := by
  intro j
  induction j with
  | zero =>
    intro a
    simp only [rfindAux]
    by_cases hc : pat.length ≤ s.length ∧ matchAt mc s pat 0 = true
    · rw [if_pos (by simp [hc.1, hc.2])]
      constructor
      · rintro h'; cases h'
        exact ⟨le_refl 0, by simpa using hc.1, hc.2, fun k hk1 hk2 _ => by omega⟩
      · rintro ⟨ha, -, -, -⟩
        interval_cases a
        rfl
    · rw [if_neg (by
        intro hcon
        simp only [Bool.and_eq_true, decide_eq_true_eq] at hcon
        exact hc hcon)]
      constructor
      · intro h'; cases h'
      · rintro ⟨ha, haL, ham, -⟩
        interval_cases a
        exact absurd ⟨by simpa using haL, ham⟩ hc
  | succ j ih =>
    intro a
    simp only [rfindAux]
    by_cases hc : j + 1 + pat.length ≤ s.length ∧ matchAt mc s pat (j + 1) = true
    · rw [if_pos (by simp [hc.1, hc.2])]
      constructor
      · rintro h'; cases h'
        exact ⟨le_refl _, hc.1, hc.2, fun k hk1 hk2 _ => by omega⟩
      · rintro ⟨ha, haL, ham, hmax⟩
        rcases Nat.eq_or_lt_of_le ha with rfl | hlt
        · rfl
        · exact absurd (hmax (j + 1) hlt (le_refl _) hc.1) (by simp [hc.2])
    · rw [if_neg (by
        intro hcon
        simp only [Bool.and_eq_true, decide_eq_true_eq] at hcon
        exact hc hcon), ih a]
      constructor
      · rintro ⟨ha, haL, ham, hmax⟩
        refine ⟨by omega, haL, ham, fun k hk1 hk2 hkL => ?_⟩
        by_cases hkj : k = j + 1
        · subst hkj
          by_cases hmk : matchAt mc s pat (j + 1) = true
          · exact absurd ⟨hkL, hmk⟩ hc
          · exact matchAt_eq_false mc s pat (j + 1) hmk
        · exact hmax k hk1 (by omega) hkL
      · rintro ⟨ha, haL, ham, hmax⟩
        have hne : a ≠ j + 1 := by
          rintro rfl
          exact hc ⟨haL, ham⟩
        exact ⟨by omega, haL, ham, fun k hk1 hk2 hkL => hmax k hk1 (by omega) hkL⟩

theorem rfindAux_isSome (mc : Bool) (s pat : List Char) :
    ∀ j k, k ≤ j → k + pat.length ≤ s.length → matchAt mc s pat k = true →
      (rfindAux mc s pat j).isSome = true := by
  intro j
  induction j with
  | zero =>
    intro k hk hkL hm
    interval_cases k
    simp only [rfindAux]
    rw [if_pos (by simp [by simpa using hkL, hm])]
    rfl
  | succ j ih =>
    intro k hk hkL hm
    simp only [rfindAux]
    by_cases hc : (decide (j + 1 + pat.length ≤ s.length) && matchAt mc s pat (j + 1)) = true
    · rw [if_pos hc]; rfl
    · rw [if_neg hc]
      by_cases hkj : k = j + 1
      · subst hkj
        exact absurd (by simp [by simpa using hkL, hm]) hc
      · exact ih k (by omega) hkL hm

theorem backward_search_some (mc : Bool) (s pat : List Char) (c a b : Nat)
    (h : backward_search mc s pat c = some (a, b)) :
    b = a + pat.length ∧ b ≤ c ∧ a + pat.length ≤ s.length ∧ matchAt mc s pat a = true := by
  unfold backward_search at h
  by_cases hc : pat.length ≤ c
  · rw [if_pos hc] at h
    cases hr : rfindAux mc s pat (c - pat.length) with
    | none => rw [hr] at h; cases h
    | some x =>
      rw [hr] at h
      obtain ⟨hx1, hx2, hx3, -⟩ := (rfindAux_some_iff mc s pat _ x).mp hr
      simp only [Option.map_some', Option.some.injEq, Prod.mk.injEq] at h
      obtain ⟨rfl, rfl⟩ := h
      exact ⟨rfl, by omega, hx2, hx3⟩
  · rw [if_neg hc] at h; cases h

theorem backward_search_none (mc : Bool) (s pat : List Char) (c : Nat)
    (h : backward_search mc s pat c = none) :
    ∀ k, k + pat.length ≤ c → k + pat.length ≤ s.length → matchAt mc s pat k = false := by
  intro k hk hkL
  unfold backward_search at h
  by_cases hc : pat.length ≤ c
  · rw [if_pos hc] at h
    cases hr : rfindAux mc s pat (c - pat.length) with
    | some x => rw [hr] at h; cases h
    | none =>
      by_cases hmk : matchAt mc s pat k = true
      · have := rfindAux_isSome mc s pat (c - pat.length) k (by omega) hkL hmk
        rw [hr] at this; cases this
      · exact matchAt_eq_false mc s pat k hmk
  · omega

/-! ## Lemmas: whole-word scanning -/

theorem wholeWordAt_true_iff (mc : Bool) (s pat : List Char) (k : Nat) :
    wholeWordAt mc s pat k = true ↔
      (k + pat.length ≤ s.length ∧ matchAt mc s pat k = true ∧
        startsWord s k = true ∧ endsWord s (k + pat.length) = true) := by
  simp [wholeWordAt, Bool.and_eq_true, decide_eq_true_eq, and_assoc]

theorem wholeWordAt_false_of_not_match (mc : Bool) (s pat : List Char) (k : Nat)
    (h : matchAt mc s pat k = false) : wholeWordAt mc s pat k = false := by
  cases hw : wholeWordAt mc s pat k
  · rfl
  · obtain ⟨-, hm, -, -⟩ := (wholeWordAt_true_iff mc s pat k).mp hw
    rw [h] at hm; cases hm

theorem wholeWordAt_false_of_not_boundary (mc : Bool) (s pat : List Char) (k : Nat)
    (h : (startsWord s k && endsWord s (k + pat.length)) = false) :
    wholeWordAt mc s pat k = false := by
  cases hw : wholeWordAt mc s pat k
  · rfl
  · obtain ⟨-, -, h1, h2⟩ := (wholeWordAt_true_iff mc s pat k).mp hw
    rw [h1, h2] at h; cases h

theorem searchWWAux_spec (mc : Bool) (s pat : List Char) (hpat : pat ≠ []) :
    ∀ fuel i m, s.length + 1 - i ≤ fuel →
      (searchWWAux mc s pat i fuel = some m ↔
        ∃ a, m = (a, a + pat.length) ∧ i ≤ a ∧ wholeWordAt mc s pat a = true ∧
          ∀ k, i ≤ k → k < a → wholeWordAt mc s pat k = false) := by
  have hL : 1 ≤ pat.length := List.length_pos.mpr hpat
  intro fuel
  induction fuel with
  | zero =>
    intro i m h
    constructor
    · intro h'; cases h'
    · rintro ⟨a, -, hia, hww, -⟩
      obtain ⟨haL, -, -, -⟩ := (wholeWordAt_true_iff mc s pat a).mp hww
      omega
  | succ fuel ih =>
    intro i m h
    cases hf : findFrom mc s pat i with
    | none =>
      simp only [searchWWAux, hf]
      constructor
      · intro h'; cases h'
      · rintro ⟨a, -, hia, hww, -⟩
        obtain ⟨haL, ham, -, -⟩ := (wholeWordAt_true_iff mc s pat a).mp hww
        have := findFrom_isSome mc s pat i a hia haL ham
        rw [hf] at this; cases this
    | some j =>
      simp only [searchWWAux, hf]
      obtain ⟨hij, hjL, hmj, hminj⟩ := (findFrom_some_iff mc s pat i j).mp hf
      by_cases hb : (startsWord s j && endsWord s (j + pat.length)) = true
      · rw [if_pos hb]
        have hwwj : wholeWordAt mc s pat j = true := by
          rw [Bool.and_eq_true] at hb
          exact (wholeWordAt_true_iff mc s pat j).mpr ⟨hjL, hmj, hb.1, hb.2⟩
        constructor
        · rintro h'; cases h'
          refine ⟨j, rfl, hij, hwwj, fun k hk1 hk2 => ?_⟩
          exact wholeWordAt_false_of_not_match mc s pat k (hminj k hk1 hk2)
        · rintro ⟨a, rfl, hia, hwwa, hmina⟩
          obtain ⟨haL, ham, -, -⟩ := (wholeWordAt_true_iff mc s pat a).mp hwwa
          have haj : j ≤ a := by
            by_contra hlt
            have := hminj a hia (by omega)
            rw [this] at ham; cases ham
          rcases Nat.eq_or_lt_of_le haj with rfl | hlt
          · rfl
          · exact absurd hwwj (by simp [hmina j hij hlt])
      · have hb' : (startsWord s j && endsWord s (j + pat.length)) = false := by
          revert hb; cases startsWord s j && endsWord s (j + pat.length) <;> simp
        rw [if_neg hb, if_pos (show i < s.length by omega),
          ih (i + 1) m (by omega)]
        have hwwi : wholeWordAt mc s pat i = false := by
          rcases Nat.eq_or_lt_of_le hij with rfl | hlt
          · exact wholeWordAt_false_of_not_boundary mc s pat i hb'
          · exact wholeWordAt_false_of_not_match mc s pat i
              (by
                have := hminj i (le_refl i) hlt
                exact this)
        constructor
        · rintro ⟨a, rfl, hia, hwwa, hmina⟩
          refine ⟨a, rfl, by omega, hwwa, fun k hk1 hk2 => ?_⟩
          rcases Nat.eq_or_lt_of_le hk1 with rfl | hklt
          · exact hwwi
          · exact hmina k (by omega) hk2
        · rintro ⟨a, rfl, hia, hwwa, hmina⟩
          have hne : i ≠ a := by
            rintro rfl
            rw [hwwi] at hwwa; cases hwwa
          exact ⟨a, rfl, by omega, hwwa, fun k hk1 hk2 => hmina k (by omega) hk2⟩

theorem search_whole_word_spec (mc : Bool) (s pat : List Char) (hpat : pat ≠ [])
    (i : Nat) (m : Nat × Nat) :
    search_text_in_buffer_whole_word mc s pat i = some m ↔
      ∃ a, m = (a, a + pat.length) ∧ i ≤ a ∧ wholeWordAt mc s pat a = true ∧
        ∀ k, i ≤ k → k < a → wholeWordAt mc s pat k = false :=
  searchWWAux_spec mc s pat hpat (s.length + 1) i m (by omega)

/-! ## Claim theorems: search (C6, C7) -/

/-- C6: plain-mode `find_next` starts the search one position after the
cursor while `find_previous` starts at the cursor; a failed forward search
retries exactly once from the document start and a failed backward search
once from the document end, so searching `needle` in `xneedlex` from just
after the sole match wraps around and returns that same match.  Stated
as: (i) the concrete wrap example; (ii) any existing occurrence is found
from any cursor (the wrap retry cannot miss); (iii) a returned forward
match is a real occurrence and lies after the cursor unless nothing after
the cursor matches (the wrapped case); (iv) a returned backward match
ends at or before the cursor unless nothing ends at or before it. -/
theorem find_next_wraps_once_after_cursor :
    (find_next_plain "xneedlex".data "needle".data 7 true = some (1, 7)) ∧
    (∀ (s pat : List Char) (c : Nat) (mc : Bool) (j : Nat),
      j + pat.length ≤ s.length → matchAt mc s pat j = true →
      (find_next_plain s pat c mc).isSome = true) ∧
    (∀ (s pat : List Char) (c : Nat) (mc : Bool) (a b : Nat),
      find_next_plain s pat c mc = some (a, b) →
      b = a + pat.length ∧ a + pat.length ≤ s.length ∧ matchAt mc s pat a = true ∧
        (c + 1 ≤ a ∨
          ∀ k, c + 1 ≤ k → k + pat.length ≤ s.length → matchAt mc s pat k = false)) ∧
    (∀ (s pat : List Char) (c : Nat) (mc : Bool) (a b : Nat), c ≤ s.length →
      find_previous_plain s pat c mc = some (a, b) →
      b = a + pat.length ∧ a + pat.length ≤ s.length ∧ matchAt mc s pat a = true ∧
        (b ≤ c ∨
          ∀ k, k + pat.length ≤ c → matchAt mc s pat k = false)) := by
  refine ⟨by decide, ?_, ?_, ?_⟩
  · intro s pat c mc j hjL hm
    unfold find_next_plain search_text_in_buffer
    cases h1 : findFrom mc s pat (c + 1) with
    | some x => rfl
    | none =>
      have h0 := findFrom_isSome mc s pat 0 j (Nat.zero_le j) hjL hm
      cases h2 : findFrom mc s pat 0 with
      | some x => rfl
      | none => rw [h2] at h0; cases h0
  · intro s pat c mc a b h
    unfold find_next_plain search_text_in_buffer at h
    cases h1 : findFrom mc s pat (c + 1) with
    | some j =>
      rw [h1] at h
      simp only [Option.map_some', Option.some.injEq, Prod.mk.injEq] at h
      obtain ⟨rfl, rfl⟩ := h
      obtain ⟨hc, hjL, hmj, -⟩ := (findFrom_some_iff mc s pat (c + 1) j).mp h1
      exact ⟨rfl, hjL, hmj, Or.inl hc⟩
    | none =>
      rw [h1] at h
      cases h2 : findFrom mc s pat 0 with
      | none => rw [h2] at h; cases h
      | some j =>
        rw [h2] at h
        simp only [Option.map_some', Option.some.injEq, Prod.mk.injEq] at h
        obtain ⟨rfl, rfl⟩ := h
        obtain ⟨-, hjL, hmj, -⟩ := (findFrom_some_iff mc s pat 0 a).mp h2
        exact ⟨rfl, hjL, hmj, Or.inr (findFrom_none mc s pat (c + 1) h1)⟩
  · intro s pat c mc a b hcs h
    unfold find_previous_plain at h
    cases h1 : backward_search mc s pat c with
    | some m =>
      rw [h1] at h; cases h
      obtain ⟨he, hbc, haL, hma⟩ := backward_search_some mc s pat c a b h1
      exact ⟨he, haL, hma, Or.inl hbc⟩
    | none =>
      rw [h1] at h
      obtain ⟨he, -, haL, hma⟩ := backward_search_some mc s pat s.length a b h
      refine ⟨he, haL, hma, Or.inr fun k hk => ?_⟩
      exact backward_search_none mc s pat c h1 k hk (by omega)

/-- Closed witness for `find_next_wraps_once_after_cursor`: instantiates
each hypothesis-bearing conjunct at concrete inputs. -/
theorem find_next_wraps_once_after_cursor_witness :
    ((find_next_plain "ab".data "b".data 0 true).isSome = true) ∧
    (2 = 1 + "b".data.length ∧ 1 + "b".data.length ≤ "ab".data.length ∧
      matchAt true "ab".data "b".data 1 = true ∧
      (0 + 1 ≤ 1 ∨ ∀ k, 0 + 1 ≤ k → k + "b".data.length ≤ "ab".data.length →
        matchAt true "ab".data "b".data k = false)) ∧
    (2 = 1 + "b".data.length ∧ 1 + "b".data.length ≤ "ab".data.length ∧
      matchAt true "ab".data "b".data 1 = true ∧
      (2 ≤ 2 ∨ ∀ k, k + "b".data.length ≤ 2 → matchAt true "ab".data "b".data k = false)) :=
  ⟨find_next_wraps_once_after_cursor.2.1 "ab".data "b".data 0 true 1 (by decide) (by decide),
    find_next_wraps_once_after_cursor.2.2.1 "ab".data "b".data 0 true 1 2 (by decide),
    find_next_wraps_once_after_cursor.2.2.2 "ab".data "b".data 2 true 1 2 (by decide) (by decide)⟩

/-- C7: in whole-word mode a candidate match is accepted only if both its
ends lie on word boundaries, and a rejected candidate advances the scan
position by one character before retrying, so the scan returns exactly
the first whole-word occurrence at or after its start position; in
particular searching `cat` with whole-word enabled in `concatenate cat`
returns only the second occurrence. -/
theorem whole_word_search_first_accepted :
    (search_text_in_buffer_whole_word true "concatenate cat".data "cat".data 0 =
      some (12, 15)) ∧
    (find_next_whole_word "concatenate cat".data "cat".data 0 true = some (12, 15)) ∧
    (∀ (mc : Bool) (s pat : List Char), pat ≠ [] → ∀ (i : Nat) (m : Nat × Nat),
      search_text_in_buffer_whole_word mc s pat i = some m ↔
        ∃ a, m = (a, a + pat.length) ∧ i ≤ a ∧ wholeWordAt mc s pat a = true ∧
          ∀ k, i ≤ k → k < a → wholeWordAt mc s pat k = false) :=
  ⟨by decide, by decide, fun mc s pat hpat i m => search_whole_word_spec mc s pat hpat i m⟩

/-- Closed witness for `whole_word_search_first_accepted`: instantiates
the characterization at a concrete buffer and pattern. -/
theorem whole_word_search_first_accepted_witness :
    ("cat".data ≠ []) ∧
    (search_text_in_buffer_whole_word true "x cat".data "cat".data 0 = some (2, 5) ↔
      ∃ a, (2, 5) = (a, a + "cat".data.length) ∧ 0 ≤ a ∧
        wholeWordAt true "x cat".data "cat".data a = true ∧
        ∀ k, 0 ≤ k → k < a → wholeWordAt true "x cat".data "cat".data k = false) :=
  ⟨by decide,
    whole_word_search_first_accepted.2.2 true "x cat".data "cat".data (by decide) 0 (2, 5)⟩

/-! ## Lemmas: replace-all collection and reverse-order application -/

theorem collectAux_chain (mc : Bool) (s pat : List Char) :
    ∀ fuel i, ChainFrom s.length i (collectAux mc s pat i fuel) := by
  intro fuel
  induction fuel with
  | zero => intro i; simp only [collectAux, ChainFrom]
  | succ fuel ih =>
    intro i
    cases hf : findFrom mc s pat i with
    | none => simp only [collectAux, hf, ChainFrom]
    | some j =>
      simp only [collectAux, hf, ChainFrom]
      obtain ⟨hij, hjL, -, -⟩ := (findFrom_some_iff mc s pat i j).mp hf
      exact ⟨hij, by omega, hjL, ih (j + pat.length)⟩

theorem collectAux_sound (mc : Bool) (s pat : List Char) :
    ∀ fuel i, ∀ m ∈ collectAux mc s pat i fuel,
      m.2 = m.1 + pat.length ∧ matchAt mc s pat m.1 = true ∧ i ≤ m.1 ∧
        m.1 + pat.length ≤ s.length := by
  intro fuel
  induction fuel with
  | zero => intro i m hm; simp only [collectAux] at hm; cases hm
  | succ fuel ih =>
    intro i m hm
    cases hf : findFrom mc s pat i with
    | none => rw [collectAux, hf] at hm; cases hm
    | some j =>
      rw [collectAux, hf] at hm
      obtain ⟨hij, hjL, hmj, -⟩ := (findFrom_some_iff mc s pat i j).mp hf
      rcases List.mem_cons.mp hm with rfl | htail
      · exact ⟨rfl, hmj, hij, hjL⟩
      · obtain ⟨h1, h2, h3, h4⟩ := ih (j + pat.length) m htail
        exact ⟨h1, h2, by omega, h4⟩

theorem collectAux_complete (mc : Bool) (s pat : List Char) (hpat : pat ≠ []) :
    ∀ fuel i k, s.length + 1 - i ≤ fuel → i ≤ k → k + pat.length ≤ s.length →
      matchAt mc s pat k = true →
      ∃ m ∈ collectAux mc s pat i fuel, m.1 ≤ k ∧ k < m.2 := by
  have hL : 1 ≤ pat.length := List.length_pos.mpr hpat
  intro fuel
  induction fuel with
  | zero => intro i k h hik hkL hmk; omega
  | succ fuel ih =>
    intro i k h hik hkL hmk
    cases hf : findFrom mc s pat i with
    | none =>
      have := findFrom_none mc s pat i hf k hik hkL
      rw [this] at hmk; cases hmk
    | some j =>
      obtain ⟨hij, hjL, hmj, hminj⟩ := (findFrom_some_iff mc s pat i j).mp hf
      have hjk : j ≤ k := by
        by_contra hlt
        have := hminj k hik (by omega)
        rw [this] at hmk; cases hmk
      by_cases hin : k < j + pat.length
      · refine ⟨(j, j + pat.length), ?_, hjk, hin⟩
        rw [collectAux, hf]
        exact List.mem_cons_self _ _
      · obtain ⟨m, hmem, hm1, hm2⟩ :=
          ih (j + pat.length) k (by omega) (by omega) hkL hmk
        refine ⟨m, ?_, hm1, hm2⟩
        rw [collectAux, hf]
        exact List.mem_cons_of_mem _ hmem

theorem foldl_replace_snd (repl : List Char) :
    ∀ (l : List (Nat × Nat)) (p : List Char × Nat),
      (l.foldl (fun acc m => (replaceRange acc.1 m.1 m.2 repl, acc.2 + 1)) p).2 =
        p.2 + l.length := by
  intro l
  induction l with
  | nil => intro p; simp
  | cons x xs ih => intro p; rw [List.foldl_cons, ih]; simp; omega

theorem applyReplacements_snd (s repl : List Char) (ms : List (Nat × Nat)) :
    (applyReplacements s repl ms).2 = ms.length := by
  unfold applyReplacements
  rw [foldl_replace_snd]
  simp

theorem applyReplacements_fst_eq_spec (repl : List Char) :
    ∀ (ms : List (Nat × Nat)) (s : List Char) (b : Nat), ChainFrom s.length b ms →
      (applyReplacements s repl ms).1 = s.take b ++ specReplace s repl b ms := by
  intro ms
  induction ms with
  | nil =>
    intro s b hchain
    simp [applyReplacements, specReplace]
  | cons m rest ih =>
    rcases m with ⟨a, c⟩
    intro s b hchain
    obtain ⟨hba, hac, hcl, hrest⟩ := hchain
    have hx : (applyReplacements s repl ((a, c) :: rest)).1 =
        replaceRange (applyReplacements s repl rest).1 a c repl := by
      unfold applyReplacements
      rw [List.reverse_cons, List.foldl_append]
      simp
    rw [hx, ih s c hrest]
    unfold replaceRange
    have hlen : (s.take c).length = c := by
      rw [List.length_take]; omega
    have htake : (s.take c ++ specReplace s repl c rest).take a = s.take a := by
      rw [List.take_append_of_le_length (by omega), List.take_take, min_eq_left hac]
    have hdrop : (s.take c ++ specReplace s repl c rest).drop c = specReplace s repl c rest := by
      have hdl := List.drop_left (s.take c) (specReplace s repl c rest)
      rw [hlen] at hdl
      exact hdl
    rw [htake, hdrop]
    show s.take a ++ repl ++ specReplace s repl c rest =
      s.take b ++ ((s.drop b).take (a - b) ++ repl ++ specReplace s repl c rest)
    have hta : s.take b ++ (s.drop b).take (a - b) = s.take a := by
      rw [← List.take_add]
      congr 1
      omega
    rw [← hta]
    simp [List.append_assoc]

/-! ## Claim theorems: replace-all (C1, C10) -/

/-- C1: `replace_all` first scans the whole document, collecting every
match's `(start, end)` offsets without mutating it, then applies the
replacements iterating the collected list in reverse (highest offset
first); consequently replacing `a` with `bb` in a buffer containing `aaa`
yields `bbbbbb` with count 3.  Stated as: the concrete example in simple
and regex mode (both case flags); the reverse-order application of the
collected list computes exactly the simultaneous left-to-right
replacement of those matches (offsets of not-yet-processed matches stay
valid), with the count equal to the number of collected matches; every
collected pair is a real occurrence; and no occurrence lies outside all
collected spans. -/
theorem replace_all_collect_then_reverse :
    (∀ mc : Bool, replace_all_simple "aaa".data "a".data "bb".data mc = ("bbbbbb".data, 3)) ∧
    (∀ mc : Bool, replace_all_regex "aaa".data "a".data "bb".data mc = ("bbbbbb".data, 3)) ∧
    (∀ (mc : Bool) (s pat repl : List Char),
      replace_all_simple s pat repl mc =
        (specReplace s repl 0 (collect_all mc s pat), (collect_all mc s pat).length)) ∧
    (∀ (mc : Bool) (s pat : List Char), ∀ m ∈ collect_all mc s pat,
      m.2 = m.1 + pat.length ∧ matchAt mc s pat m.1 = true ∧
        m.1 + pat.length ≤ s.length) ∧
    (∀ (mc : Bool) (s pat : List Char), pat ≠ [] → ∀ k, k + pat.length ≤ s.length →
      matchAt mc s pat k = true → ∃ m ∈ collect_all mc s pat, m.1 ≤ k ∧ k < m.2) := by
  refine ⟨?_, ?_, ?_, ?_, ?_⟩
  · intro mc; cases mc <;> decide
  · intro mc; cases mc <;> decide
  · intro mc s pat repl
    have h1 := applyReplacements_fst_eq_spec repl (collect_all mc s pat) s 0
      (collectAux_chain mc s pat (s.length + 1) 0)
    have h2 := applyReplacements_snd s repl (collect_all mc s pat)
    unfold replace_all_simple
    rw [Prod.ext_iff]
    refine ⟨?_, h2⟩
    rw [h1]
    simp
  · intro mc s pat m hm
    obtain ⟨h1, h2, -, h4⟩ := collectAux_sound mc s pat (s.length + 1) 0 m hm
    exact ⟨h1, h2, h4⟩
  · intro mc s pat hpat k hkL hmk
    exact collectAux_complete mc s pat hpat (s.length + 1) 0 k (by omega) (Nat.zero_le k) hkL hmk

/-- Closed witness for `replace_all_collect_then_reverse`: instantiates
the structural conjuncts at a concrete buffer and pattern. -/
theorem replace_all_collect_then_reverse_witness :
    (replace_all_simple "abab".data "ab".data "c".data true =
      (specReplace "abab".data "c".data 0 (collect_all true "abab".data "ab".data),
        (collect_all true "abab".data "ab".data).length)) ∧
    ("ab".data ≠ []) ∧ (2 + "ab".data.length ≤ "abab".data.length) ∧
    (matchAt true "abab".data "ab".data 2 = true) ∧
    (∃ m ∈ collect_all true "abab".data "ab".data, m.1 ≤ 2 ∧ 2 < m.2) :=
  ⟨replace_all_collect_then_reverse.2.2.1 true "abab".data "ab".data "c".data,
    by decide, by decide, by decide,
    replace_all_collect_then_reverse.2.2.2.2 true "abab".data "ab".data (by decide) 2
      (by decide) (by decide)⟩

/-- C10: in `replace_all` with whole-word mode, after every candidate
substring match the scan resumes at the end of that match, including when
the candidate was rejected for not being a whole word, so overlapping
whole-word candidates starting inside a rejected candidate are never
collected or replaced.  Stated as: the rejected-candidate resume rule on
the collection loop; only whole-word spans are ever collected; and the
concrete demonstration that replacing the whole-word pattern `a a` in
`ba a a` performs no replacement even though a whole-word occurrence
starts at offset 3, inside the rejected candidate spanning `[1, 4)`. -/
theorem replace_all_whole_word_resumes_at_match_end :
    (replace_all_whole_word "ba a a".data "a a".data "X".data true = ("ba a a".data, 0)) ∧
    (findFrom true "ba a a".data "a a".data 0 = some 1) ∧
    (wholeWordAt true "ba a a".data "a a".data 3 = true) ∧
    (∀ (mc : Bool) (s pat : List Char) (i j fuel : Nat),
      findFrom mc s pat i = some j →
      (startsWord s j && endsWord s (j + pat.length)) = false →
      collectWWAux mc s pat i (fuel + 1) = collectWWAux mc s pat (j + pat.length) fuel) ∧
    (∀ (mc : Bool) (s pat : List Char) (fuel i : Nat), ∀ m ∈ collectWWAux mc s pat i fuel,
      m.2 = m.1 + pat.length ∧ wholeWordAt mc s pat m.1 = true) := by
  refine ⟨by decide, by decide, by decide, ?_, ?_⟩
  · intro mc s pat i j fuel hf hb
    simp only [collectWWAux, hf]
    rw [if_neg (by rw [hb]; simp)]
  · intro mc s pat fuel
    induction fuel with
    | zero => intro i m hm; simp only [collectWWAux] at hm; cases hm
    | succ fuel ih =>
      intro i m hm
      cases hf : findFrom mc s pat i with
      | none => simp only [collectWWAux, hf] at hm; cases hm
      | some j =>
        simp only [collectWWAux, hf] at hm
        obtain ⟨hij, hjL, hmj, -⟩ := (findFrom_some_iff mc s pat i j).mp hf
        by_cases hb : (startsWord s j && endsWord s (j + pat.length)) = true
        · rw [if_pos hb] at hm
          rcases List.mem_cons.mp hm with rfl | htail
          · rw [Bool.and_eq_true] at hb
            exact ⟨rfl, (wholeWordAt_true_iff mc s pat j).mpr ⟨hjL, hmj, hb.1, hb.2⟩⟩
          · exact ih (j + pat.length) m htail
        · rw [if_neg hb] at hm
          exact ih (j + pat.length) m hm

/-- Closed witness for `replace_all_whole_word_resumes_at_match_end`:
instantiates the resume rule and the span-soundness conjunct at concrete
inputs. -/
theorem replace_all_whole_word_resumes_at_match_end_witness :
    (findFrom true "ba a a".data "a a".data 0 = some 1) ∧
    ((startsWord "ba a a".data 1 && endsWord "ba a a".data (1 + "a a".data.length)) = false) ∧
    (collectWWAux true "ba a a".data "a a".data 0 7 =
      collectWWAux true "ba a a".data "a a".data (1 + "a a".data.length) 6) ∧
    ((2, 5) ∈ collectWWAux true "x cat".data "cat".data 0 6) ∧
    ((2, 5).2 = (2, 5).1 + "cat".data.length ∧
      wholeWordAt true "x cat".data "cat".data (2, 5).1 = true) :=
  ⟨by decide, by decide,
    replace_all_whole_word_resumes_at_match_end.2.2.2.1 true "ba a a".data "a a".data 0 1 6
      (by decide) (by decide),
    by decide,
    replace_all_whole_word_resumes_at_match_end.2.2.2.2 true "x cat".data "cat".data 6 0
      (2, 5) (by decide)⟩

/-! ## Lemmas: bracket depth scan -/

theorem depthCount_zero (inc dec c : Char) (t : List Char) (d : Int) :
    depthCount inc dec (c :: t) d 0 =
      d + (if c = inc then 1 else 0) - (if c = dec then 1 else 0) := by
  simp only [depthCount, List.take_succ_cons, List.take_zero, List.count_cons,
    List.count_nil]
  by_cases h1 : c = inc <;> by_cases h2 : c = dec <;> simp [h1, h2]

theorem depthCount_succ (inc dec c : Char) (t : List Char) (d : Int) (k : Nat) :
    depthCount inc dec (c :: t) d (k + 1) =
      depthCount inc dec t (d + (if c = inc then 1 else 0) - (if c = dec then 1 else 0)) k := by
  simp only [depthCount, List.take_succ_cons, List.count_cons]
  by_cases h1 : c = inc <;> by_cases h2 : c = dec <;> simp [h1, h2] <;> ring

theorem scanDepth_step (inc dec c : Char) (t : List Char) (d d' : Int) (hd' : 1 ≤ d')
    (hs : scanDepth inc dec (c :: t) d = (scanDepth inc dec t d').map (· + 1))
    (hd0 : depthCount inc dec (c :: t) d 0 = d')
    (hdS : ∀ k, depthCount inc dec (c :: t) d (k + 1) = depthCount inc dec t d' k)
    (ih : ∀ m, scanDepth inc dec t d' = some m ↔
      (m < t.length ∧ depthCount inc dec t d' m = 0 ∧
        ∀ k, k < m → depthCount inc dec t d' k ≠ 0)) :
    ∀ m, scanDepth inc dec (c :: t) d = some m ↔
      (m < (c :: t).length ∧ depthCount inc dec (c :: t) d m = 0 ∧
        ∀ k, k < m → depthCount inc dec (c :: t) d k ≠ 0) := by
  intro m
  rw [hs, Option.map_eq_some']
  cases m with
  | zero =>
    constructor
    · rintro ⟨m', -, hm'⟩; omega
    · rintro ⟨-, hdc, -⟩
      rw [hd0] at hdc
      omega
  | succ m' =>
    constructor
    · rintro ⟨m'', hsc, heq⟩
      have hm : m'' = m' := by omega
      subst hm
      obtain ⟨hlen, hdc, hmin⟩ := (ih m'').mp hsc
      refine ⟨by simp [hlen], by rw [hdS]; exact hdc, fun k hk => ?_⟩
      cases k with
      | zero => rw [hd0]; omega
      | succ k' => rw [hdS]; exact hmin k' (by omega)
    · rintro ⟨hlen, hdc, hmin⟩
      refine ⟨m', ?_, rfl⟩
      apply (ih m').mpr
      refine ⟨by simpa using hlen, by rw [← hdS]; exact hdc, fun k hk => ?_⟩
      rw [← hdS]
      exact hmin (k + 1) (by omega)

theorem scanDepth_some_iff (inc dec : Char) (hne : inc ≠ dec) :
    ∀ (t : List Char) (d : Int), 1 ≤ d → ∀ m,
      (scanDepth inc dec t d = some m ↔
        (m < t.length ∧ depthCount inc dec t d m = 0 ∧
          ∀ k, k < m → depthCount inc dec t d k ≠ 0)) := by
  intro t
  induction t with
  | nil =>
    intro d hd m
    constructor
    · intro h; cases h
    · rintro ⟨hm, -, -⟩; simp at hm
  | cons c t ih =>
    intro d hd m
    by_cases h1 : c = inc
    · subst h1
      refine scanDepth_step c dec c t d (d + 1) (by omega) (by simp [scanDepth])
        ?_ ?_ (ih (d + 1) (by omega)) m
      · rw [depthCount_zero, if_pos rfl, if_neg hne]; ring
      · intro k
        rw [depthCount_succ, if_pos rfl, if_neg hne]
        norm_num
    · by_cases h2 : c = dec
      · subst h2
        by_cases hd1 : d = 1
        · subst hd1
          have hs : scanDepth inc c (c :: t) 1 = some 0 := by
            simp [scanDepth, h1]
          rw [hs]
          cases m with
          | zero =>
            simp only [Option.some.injEq]
            constructor
            · intro _
              refine ⟨by simp, ?_, fun k hk => absurd hk (by omega)⟩
              rw [depthCount_zero, if_neg (Ne.symm hne), if_pos rfl]
              ring
            · intro _; trivial
          | succ m' =>
            constructor
            · intro h; cases h
            · rintro ⟨-, -, hmin⟩
              exfalso
              apply hmin 0 (by omega)
              rw [depthCount_zero, if_neg (Ne.symm hne), if_pos rfl]
              ring
        · refine scanDepth_step inc c c t d (d - 1) (by omega)
            (by simp [scanDepth, h1, sub_eq_zero, hd1]) ?_ ?_
            (ih (d - 1) (by omega)) m
          · rw [depthCount_zero, if_neg (Ne.symm hne), if_pos rfl]; ring
          · intro k
            rw [depthCount_succ, if_neg (Ne.symm hne), if_pos rfl]
            norm_num
      · refine scanDepth_step inc dec c t d d (by omega) (by simp [scanDepth, h1, h2])
          ?_ ?_ (ih d (by omega)) m
        · rw [depthCount_zero, if_neg h1, if_neg h2]; ring
        · intro k
          rw [depthCount_succ, if_neg h1, if_neg h2]
          norm_num

theorem bracketInfo_classes_ne (c ob cb : Char) (fwd : Bool)
    (h : bracketInfo c = some (ob, cb, fwd)) : ob ≠ cb := by
  unfold bracketInfo at h
  split_ifs at h <;> cases h <;> decide

/-! ## Claim theorem: bracket matching (C4) -/

/-- C4: `find_matching_bracket`, given a cursor on one of the six bracket
characters, scans forward for an opening seed and backward for a closing
one, keeping a nesting-depth counter that starts at 1, increments on a
bracket of the seed's class, decrements on the counterpart class, and
returns the position where the depth reaches 0, or no match when the scan
exhausts the document.  Stated as: the two concrete examples from the
specification, plus the characterization of both scan directions against
the reference depth value `depthCount` (start depth plus seed-class count
minus counterpart-class count over the scanned characters): the returned
position is exactly the first scanned position where that value is 0. -/
theorem find_matching_bracket_depth :
    (find_matching_bracket "(a(b)c)".data 0 = some 6) ∧
    (find_matching_bracket "(a]".data 0 = none) ∧
    (∀ (s : List Char) (i : Nat) (ob cb : Char),
      bracketInfo (charAt s i) = some (ob, cb, true) →
      ∀ j, (find_matching_bracket s i = some j ↔
        ∃ m, j = i + 1 + m ∧ m < (s.drop (i + 1)).length ∧
          depthCount ob cb (s.drop (i + 1)) 1 m = 0 ∧
          ∀ k, k < m → depthCount ob cb (s.drop (i + 1)) 1 k ≠ 0)) ∧
    (∀ (s : List Char) (i : Nat) (ob cb : Char),
      bracketInfo (charAt s i) = some (ob, cb, false) →
      ∀ j, (find_matching_bracket s i = some j ↔
        ∃ m, j = i - 1 - m ∧ m < ((s.take i).reverse).length ∧
          depthCount cb ob ((s.take i).reverse) 1 m = 0 ∧
          ∀ k, k < m → depthCount cb ob ((s.take i).reverse) 1 k ≠ 0)) := by
  refine ⟨by decide, by decide, ?_, ?_⟩
  · intro s i ob cb hinfo j
    have hne : ob ≠ cb := bracketInfo_classes_ne (charAt s i) ob cb true hinfo
    rw [show find_matching_bracket s i =
        (scanDepth ob cb (s.drop (i + 1)) 1).map (fun m => i + 1 + m) from by
      simp [find_matching_bracket, hinfo]]
    rw [Option.map_eq_some']
    constructor
    · rintro ⟨m, hsc, rfl⟩
      obtain ⟨h1, h2, h3⟩ := (scanDepth_some_iff ob cb hne (s.drop (i + 1)) 1 (by omega) m).mp hsc
      exact ⟨m, rfl, h1, h2, h3⟩
    · rintro ⟨m, rfl, h1, h2, h3⟩
      exact ⟨m, (scanDepth_some_iff ob cb hne (s.drop (i + 1)) 1 (by omega) m).mpr
        ⟨h1, h2, h3⟩, rfl⟩
  · intro s i ob cb hinfo j
    have hne : ob ≠ cb := bracketInfo_classes_ne (charAt s i) ob cb false hinfo
    rw [show find_matching_bracket s i =
        (scanDepth cb ob ((s.take i).reverse) 1).map (fun m => i - 1 - m) from by
      simp [find_matching_bracket, hinfo]]
    rw [Option.map_eq_some']
    constructor
    · rintro ⟨m, hsc, rfl⟩
      obtain ⟨h1, h2, h3⟩ :=
        (scanDepth_some_iff cb ob (Ne.symm hne) ((s.take i).reverse) 1 (by omega) m).mp hsc
      exact ⟨m, rfl, h1, h2, h3⟩
    · rintro ⟨m, rfl, h1, h2, h3⟩
      exact ⟨m, (scanDepth_some_iff cb ob (Ne.symm hne) ((s.take i).reverse) 1
        (by omega) m).mpr ⟨h1, h2, h3⟩, rfl⟩

/-- Closed witness for `find_matching_bracket_depth`: instantiates the
forward characterization on `(a)` at the opening bracket and the backward
characterization at the closing bracket. -/
theorem find_matching_bracket_depth_witness :
    (bracketInfo (charAt "(a)".data 0) = some ('(', ')', true)) ∧
    (find_matching_bracket "(a)".data 0 = some 2 ↔
      ∃ m, 2 = 0 + 1 + m ∧ m < ("(a)".data.drop (0 + 1)).length ∧
        depthCount '(' ')' ("(a)".data.drop (0 + 1)) 1 m = 0 ∧
        ∀ k, k < m → depthCount '(' ')' ("(a)".data.drop (0 + 1)) 1 k ≠ 0) ∧
    (bracketInfo (charAt "(a)".data 2) = some ('(', ')', false)) ∧
    (find_matching_bracket "(a)".data 2 = some 0 ↔
      ∃ m, 0 = 2 - 1 - m ∧ m < (("(a)".data.take 2).reverse).length ∧
        depthCount ')' '(' (("(a)".data.take 2).reverse) 1 m = 0 ∧
        ∀ k, k < m → depthCount ')' '(' (("(a)".data.take 2).reverse) 1 k ≠ 0) :=
  ⟨by decide,
    find_matching_bracket_depth.2.2.1 "(a)".data 0 '(' ')' (by decide) 2,
    by decide,
    find_matching_bracket_depth.2.2.2 "(a)".data 2 '(' ')' (by decide) 0⟩

/-! ## Lemmas: regex compile failure, debounce state machine -/

theorem compile_regex_error (pat : List Char) (mc : Bool)
    (h : regexCompileFails pat = true) : compile_regex pat mc = .error () := by
  unfold compile_regex
  simp only [regexCompileFails] at h
  rw [if_pos h]

theorem editBurst_passes (st : EditorState) (d : Nat) :
    ∀ n, (editBurst st d n).passes = st.passes := by
  intro n
  induction n with
  | zero => rfl
  | succ n ih => simp only [editBurst, onChanged, ih]

theorem editBurst_lineCount (st : EditorState) (d : Nat) :
    ∀ n, (editBurst st d n).lineCount = st.lineCount := by
  intro n
  induction n with
  | zero => rfl
  | succ n ih => simp only [editBurst, onChanged, ih]

theorem editBurst_dirty_superset (st : EditorState) (d : Nat) (n : Nat) :
    Finset.range (st.lineCount d) ⊆ (editBurst st d (n + 1)).dirty d := by
  show Finset.range (st.lineCount d) ⊆ (onChanged (editBurst st d n) d).dirty d
  simp only [onChanged, Function.update_same]
  rw [editBurst_lineCount]
  exact Finset.subset_union_right

/-! ## Claim theorems: invalid regex (C2), debounce (C3), dirty lines (C9) -/

/-- C2 counterexample: the claim asserts that with a pattern failing to
compile no replace is performed and the document is not mutated, for every
regex-mode search or replace call.  `replace_selection_advanced` violates
this: with the invalid pattern `(` and the selection covering `abc`, the
code falls back to a plain replacement, mutating the buffer to `X`. -/
theorem replace_selection_invalid_regex_mutates :
    replace_selection_advanced "abc".data (some (0, 3)) "(".data "X".data true = "X".data ∧
    "X".data ≠ "abc".data := by
  constructor
  · decide
  · decide

/-- C2 (amended): for regex-mode `find_next`/`find_previous` and
`replace_all` a pattern that fails to compile yields `none`/count 0 with
the document untouched, and the dialog response handler validates the
pattern first, reporting `Invalid regex` and returning before any
operation for every response type; but `replace_selection_advanced`
itself, invoked with an uncompilable pattern and a selection, falls back
to a plain replacement of the selection and mutates the document. -/
theorem invalid_regex_rejected_before_search :
    (∀ (s pat : List Char) (cursor : Nat) (mc : Bool), regexCompileFails pat = true →
      find_next_regex s pat cursor mc = none ∧ find_previous_regex s pat cursor mc = none) ∧
    (∀ (s pat repl : List Char) (mc : Bool), regexCompileFails pat = true →
      replace_all_regex s pat repl mc = (s, 0)) ∧
    (∀ (st : DialogState) (resp : SearchResponse) (searchText replText : List Char)
        (mc ww : Bool), searchText ≠ [] → regexCompileFails searchText = true →
      handleSearchResponse st resp searchText replText mc ww true =
        { st with status := .invalidRegex }) ∧
    (∀ (s : List Char) (a b : Nat) (pat repl : List Char), regexCompileFails pat = true →
      replace_selection_advanced s (some (a, b)) pat repl true = replaceRange s a b repl) := by
  refine ⟨?_, ?_, ?_, ?_⟩
  · intro s pat cursor mc h
    constructor
    · unfold find_next_regex
      rw [compile_regex_error pat mc h]
    · unfold find_previous_regex
      rw [compile_regex_error pat mc h]
  · intro s pat repl mc h
    unfold replace_all_regex
    rw [compile_regex_error pat mc h]
  · intro st resp searchText replText mc ww hne h
    unfold handleSearchResponse
    rw [if_pos ⟨rfl, hne, h⟩]
  · intro s a b pat repl h
    have hc := compile_regex_error pat true h
    simp [replace_selection_advanced, hc]

/-- Closed witness for `invalid_regex_rejected_before_search`:
instantiates every conjunct at the invalid pattern `(`. -/
theorem invalid_regex_rejected_before_search_witness :
    (find_next_regex "abc".data "(".data 0 true = none ∧
      find_previous_regex "abc".data "(".data 0 true = none) ∧
    (replace_all_regex "abc".data "(".data "X".data true = ("abc".data, 0)) ∧
    (handleSearchResponse ⟨"abc".data, 0, none, .blank⟩ .respReplaceAll "(".data "X".data
        true false true =
      { (⟨"abc".data, 0, none, .blank⟩ : DialogState) with status := .invalidRegex }) ∧
    (replace_selection_advanced "ab".data (some (0, 1)) "(".data "Y".data true =
      replaceRange "ab".data 0 1 "Y".data) :=
  ⟨invalid_regex_rejected_before_search.1 "abc".data "(".data 0 true (by decide),
    invalid_regex_rejected_before_search.2.1 "abc".data "(".data "X".data true (by decide),
    invalid_regex_rejected_before_search.2.2.1 ⟨"abc".data, 0, none, .blank⟩ .respReplaceAll
      "(".data "X".data true false (by decide) (by decide),
    invalid_regex_rejected_before_search.2.2.2 "ab".data 0 1 "(".data "Y".data (by decide)⟩

/-- C3: there is at most one pending deferred highlighting task (the
handle is a single `Option`); every edit cancels any outstanding handle
and arms a new one for the edited buffer with the 30 ms quiet period; and
a burst of `n ≥ 1` edits on one buffer followed by the timer firing
produces exactly one highlighting pass for that buffer, after which the
handle is cleared. -/
theorem debounce_coalesces_to_single_pass :
    debounceQuietMillis = 30 ∧
    (∀ (st : EditorState) (d : Nat), (onChanged st d).timer = some d) ∧
    (∀ (st : EditorState) (d n : Nat), 1 ≤ n → 1 ≤ st.lineCount d →
      (fireTimer (editBurst st d n)).passes d = st.passes d + 1 ∧
      (fireTimer (editBurst st d n)).timer = none) := by
  refine ⟨rfl, fun st d => rfl, ?_⟩
  intro st d n hn hl
  obtain ⟨m, rfl⟩ : ∃ m, n = m + 1 := ⟨n - 1, by omega⟩
  have htimer : (editBurst st d (m + 1)).timer = some d := rfl
  have hne : ((editBurst st d (m + 1)).dirty d).Nonempty := by
    refine ⟨0, ?_⟩
    apply editBurst_dirty_superset st d m
    simp only [Finset.mem_range]
    omega
  constructor
  · show (fireTimer (editBurst st d (m + 1))).passes d = st.passes d + 1
    unfold fireTimer
    rw [htimer]
    simp only [Function.update_same]
    rw [if_pos hne, editBurst_passes]
  · show (fireTimer (editBurst st d (m + 1))).timer = none
    unfold fireTimer
    rw [htimer]

/-- Closed witness for `debounce_coalesces_to_single_pass`: a burst of 3
edits on one buffer then a fire yields exactly one pass and an empty
handle. -/
theorem debounce_coalesces_to_single_pass_witness :
    (fireTimer (editBurst sampleEditorState 0 3)).passes 0 = sampleEditorState.passes 0 + 1 ∧
    (fireTimer (editBurst sampleEditorState 0 3)).timer = none :=
  debounce_coalesces_to_single_pass.2.2 sampleEditorState 0 3 (by omega) (by decide)

/-- C9: the buffer-changed handler inserts every line index
`0 .. line_count − 1` into the buffer's dirty set, regardless of which
lines the edit touched, so the padded window of the subsequent
incremental pass spans the entire document. -/
theorem changed_handler_dirties_every_line :
    ∀ (st : EditorState) (d : Nat), 1 ≤ st.lineCount d →
      Finset.range (st.lineCount d) ⊆ (onChanged st d).dirty d ∧
      highlightWindow ((onChanged st d).dirty d) (st.lineCount d) =
        (0, (st.lineCount d : Int) - 1) := by
  intro st d hl
  simp only [onChanged, Function.update_same]
  refine ⟨Finset.subset_union_right, ?_⟩
  set t := st.dirty d ∪ Finset.range (st.lineCount d) with ht
  set n := st.lineCount d with hn
  have h0 : (0 : Nat) ∈ t := by
    rw [ht]
    apply Finset.mem_union_right
    simp only [Finset.mem_range]
    omega
  have hn1 : n - 1 ∈ t := by
    rw [ht]
    apply Finset.mem_union_right
    simp only [Finset.mem_range]
    omega
  have hmin : t.min.untop' 0 = 0 := by
    have hle := Finset.min_le h0
    cases hm : t.min with
    | top => rw [hm] at hle; exact absurd hle (by simp)
    | coe m =>
      rw [hm] at hle
      have : m = 0 := by exact_mod_cast le_antisymm (by exact_mod_cast hle) (Nat.zero_le m)
      simp [this]
  have hmax : min (t.max.unbot' 0) (n - 1) = n - 1 := by
    have hle := Finset.le_max hn1
    cases hM : t.max with
    | bot => rw [hM] at hle; exact absurd hle (by simp)
    | coe M =>
      rw [hM] at hle
      have hM' : n - 1 ≤ M := by exact_mod_cast hle
      simp [min_eq_right hM']
  unfold highlightWindow
  rw [hmin, hmax]
  simp only [Prod.mk.injEq]
  refine ⟨?_, ?_⟩ <;> omega

/-- Closed witness for `changed_handler_dirties_every_line`: on the
five-line sample state the handler dirties lines 0–4 and the window is
the whole document. -/
theorem changed_handler_dirties_every_line_witness :
    Finset.range (sampleEditorState.lineCount 0) ⊆
      (onChanged sampleEditorState 0).dirty 0 ∧
    highlightWindow ((onChanged sampleEditorState 0).dirty 0)
        (sampleEditorState.lineCount 0) =
      (0, (sampleEditorState.lineCount 0 : Int) - 1) :=
  changed_handler_dirties_every_line sampleEditorState 0 (by decide)

/-! ## Lemmas: windowed incremental pass -/

theorem incrAux_length {σ τ : Type} (tok : σ → List Char → σ × τ) :
    ∀ (pairs : List (List Char × τ)) (st : σ) (i0 a b : Nat),
      (incrAux tok st i0 pairs a b).length = pairs.length := by
  intro pairs
  induction pairs with
  | nil => intro st i0 a b; rfl
  | cons p rest ih =>
    rcases p with ⟨l, t⟩
    intro st i0 a b
    simp only [incrAux, List.length_cons, ih]

theorem incrAux_getD {σ τ : Type} (tok : σ → List Char → σ × τ) (dflt : τ) :
    ∀ (pairs : List (List Char × τ)) (st : σ) (i0 a b k : Nat), k < pairs.length →
      (incrAux tok st i0 pairs a b).getD k dflt =
        if a ≤ i0 + k ∧ i0 + k ≤ b then
          (runFullAux tok st (pairs.map Prod.fst)).getD k dflt
        else (pairs.map Prod.snd).getD k dflt := by
  intro pairs
  induction pairs with
  | nil => intro st i0 a b k hk; simp at hk
  | cons p rest ih =>
    rcases p with ⟨l, t⟩
    intro st i0 a b k hk
    cases k with
    | zero =>
      simp only [incrAux, List.map_cons, runFullAux, List.getD_cons_zero, Nat.add_zero]
    | succ k =>
      simp only [incrAux, List.map_cons, runFullAux, List.getD_cons_succ]
      rw [ih (tok st l).1 (i0 + 1) a b k (by simpa using hk)]
      have harith : i0 + 1 + k = i0 + (k + 1) := by omega
      rw [harith]

/-! ## Claim theorem: incremental highlighting window (C5) -/

/-- C5: for every non-empty dirty line set the incremental pass computes
the padded window `[min − 3, max + 3]` clamped to the document's line
bounds, removes style tags only inside that window, runs the tokenizer
sequentially from line 0 (so the styling applied inside the window equals
the full pass's styling), and applies styles only to lines inside the
window: line `i` ends up with the full-pass styling when it lies in the
window and with its previous styling otherwise. -/
theorem incremental_pass_restyles_window_only {σ τ : Type}
    (tok : σ → List Char → σ × τ) (s0 : σ) (lines : List (List Char))
    (old : List τ) (dirty : Finset Nat) (dflt : τ)
    (hne : dirty.Nonempty) (hlen : old.length = lines.length) :
    ∀ i, i < lines.length →
      (apply_incremental_highlighting tok s0 lines old dirty).getD i dflt =
        if (highlightWindow dirty lines.length).1 ≤ (i : Int) ∧
            (i : Int) ≤ (highlightWindow dirty lines.length).2 then
          (runFullAux tok s0 lines).getD i dflt
        else old.getD i dflt := by
  intro i hi
  have hdne : ¬ dirty = ∅ := Finset.nonempty_iff_ne_empty.mp hne
  rw [show apply_incremental_highlighting tok s0 lines old dirty =
      apply_incremental_syntax_highlighting tok s0 lines old
        (highlightWindow dirty lines.length).1 (highlightWindow dirty lines.length).2 from by
    unfold apply_incremental_highlighting
    rw [if_neg hdne]]
  set w := highlightWindow dirty lines.length with hw
  have hw1 : 0 ≤ w.1 := by
    rw [hw]
    unfold highlightWindow
    exact le_max_right _ _
  have hw2 : w.2 ≤ (lines.length : Int) - 1 := by
    rw [hw]
    unfold highlightWindow
    exact min_le_right _ _
  rw [show apply_incremental_syntax_highlighting tok s0 lines old w.1 w.2 =
      if w.1 ⊔ 0 > w.2 ⊓ ((lines.length : Int) - 1) then old
      else incrAux tok s0 0 (lines.zip old) (w.1 ⊔ 0).toNat
        (w.2 ⊓ ((lines.length : Int) - 1)).toNat from by
    simp only [apply_incremental_syntax_highlighting]]
  rw [sup_eq_left.mpr hw1, inf_eq_left.mpr hw2]
  by_cases hab : w.1 > w.2
  · rw [if_pos hab, if_neg (by omega)]
  · rw [if_neg hab]
    have hzip : (lines.zip old).length = lines.length := by
      rw [List.length_zip, hlen, min_self]
    rw [incrAux_getD tok dflt (lines.zip old) s0 0 w.1.toNat w.2.toNat i (by omega)]
    rw [List.map_fst_zip lines old (by omega), List.map_snd_zip lines old (by omega)]
    have hcond : (w.1.toNat ≤ 0 + i ∧ 0 + i ≤ w.2.toNat) ↔
        (w.1 ≤ (i : Int) ∧ (i : Int) ≤ w.2) := by
      constructor
      · rintro ⟨h1, h2⟩
        constructor <;> omega
      · rintro ⟨h1, h2⟩
        constructor <;> omega
    by_cases hc : w.1 ≤ (i : Int) ∧ (i : Int) ≤ w.2
    · rw [if_pos (hcond.mpr hc), if_pos hc]
    · rw [if_neg (fun hcon => hc (hcond.mp hcon)), if_neg hc]

/-- Closed witness for `incremental_pass_restyles_window_only`: on a
12-line document with dirty set `{5}` the padded window is `[2, 8]`;
line 1 keeps its old styling and line 5 gets the full-pass styling. -/
theorem incremental_pass_restyles_window_only_witness :
    (({5} : Finset Nat).Nonempty) ∧
    ((List.replicate 12 (999 : Nat)).length = sampleLines.length) ∧
    (1 < sampleLines.length) ∧ (5 < sampleLines.length) ∧
    ((apply_incremental_highlighting sampleTok 0 sampleLines
        (List.replicate 12 (999 : Nat)) {5}).getD 1 0 =
      if (highlightWindow {5} sampleLines.length).1 ≤ (1 : Int) ∧
          (1 : Int) ≤ (highlightWindow {5} sampleLines.length).2 then
        (runFullAux sampleTok 0 sampleLines).getD 1 0
      else (List.replicate 12 (999 : Nat)).getD 1 0) ∧
    ((apply_incremental_highlighting sampleTok 0 sampleLines
        (List.replicate 12 (999 : Nat)) {5}).getD 5 0 =
      if (highlightWindow {5} sampleLines.length).1 ≤ (5 : Int) ∧
          (5 : Int) ≤ (highlightWindow {5} sampleLines.length).2 then
        (runFullAux sampleTok 0 sampleLines).getD 5 0
      else (List.replicate 12 (999 : Nat)).getD 5 0) :=
  ⟨⟨5, by decide⟩, by decide, by decide, by decide,
    incremental_pass_restyles_window_only sampleTok 0 sampleLines
      (List.replicate 12 (999 : Nat)) {5} 0 ⟨5, by decide⟩ (by decide) 1 (by decide),
    incremental_pass_restyles_window_only sampleTok 0 sampleLines
      (List.replicate 12 (999 : Nat)) {5} 0 ⟨5, by decide⟩ (by decide) 5 (by decide)⟩

/-! ## Claim theorem: style-tag cache (C8) -/

/-- C8: style tags are identified by the deterministic key derived from
the foreground/background colour bytes; every pass looks the key up and
creates a tag only when none with that key exists, so starting from a
duplicate-free tag table, after any sequence of passes the table is still
duplicate-free (at most one tag per distinct key), its keys are exactly
the old keys plus the keys of the styles applied, and a pass whose style
keys are already present leaves the table unchanged. -/
theorem tag_cache_one_tag_per_key :
    (∀ (table : List (List Char)) (styles : List SynStyle), table.Nodup →
      (applyStylesPass table styles).Nodup ∧
      (∀ k, k ∈ applyStylesPass table styles ↔
        k ∈ table ∨ ∃ st ∈ styles, tagKeyName st = k)) ∧
    (∀ (table : List (List Char)) (styles : List SynStyle),
      (∀ st ∈ styles, tagKeyName st ∈ table) → applyStylesPass table styles = table) := by
  constructor
  · intro table styles
    induction styles generalizing table with
    | nil =>
      intro hnd
      refine ⟨hnd, fun k => ?_⟩
      simp [applyStylesPass]
    | cons st rest ih =>
      intro hnd
      have hstep : applyStylesPass table (st :: rest) =
          applyStylesPass (lookupOrCreate table (tagKeyName st)) rest := rfl
      have hnd' : (lookupOrCreate table (tagKeyName st)).Nodup := by
        unfold lookupOrCreate
        by_cases hmem : tagKeyName st ∈ table
        · rw [if_pos hmem]; exact hnd
        · rw [if_neg hmem]
          simp [List.nodup_append, hnd, hmem]
      obtain ⟨ih1, ih2⟩ := ih (lookupOrCreate table (tagKeyName st)) hnd'
      refine ⟨by rw [hstep]; exact ih1, fun k => ?_⟩
      rw [hstep, ih2 k]
      unfold lookupOrCreate
      by_cases hmem : tagKeyName st ∈ table
      · rw [if_pos hmem]
        constructor
        · rintro (hk | hk)
          · exact Or.inl hk
          · exact Or.inr ⟨_, by simp [hk.choose_spec], hk.choose_spec.2⟩
        · rintro (hk | ⟨s', hs', rfl⟩)
          · exact Or.inl hk
          · rcases List.mem_cons.mp hs' with rfl | hs'
            · exact Or.inl hmem
            · exact Or.inr ⟨s', hs', rfl⟩
      · rw [if_neg hmem]
        simp only [List.mem_append, List.mem_singleton]
        constructor
        · rintro ((hk | rfl) | hk)
          · exact Or.inl hk
          · exact Or.inr ⟨st, List.mem_cons_self _ _, rfl⟩
          · obtain ⟨s', hs', he⟩ := hk
            exact Or.inr ⟨s', List.mem_cons_of_mem _ hs', he⟩
        · rintro (hk | ⟨s', hs', rfl⟩)
          · exact Or.inl (Or.inl hk)
          · rcases List.mem_cons.mp hs' with rfl | hs'
            · exact Or.inl (Or.inr rfl)
            · exact Or.inr ⟨s', hs', rfl⟩
  · intro table styles
    induction styles generalizing table with
    | nil => intro _; rfl
    | cons st rest ih =>
      intro hin
      have hstep : applyStylesPass table (st :: rest) =
          applyStylesPass (lookupOrCreate table (tagKeyName st)) rest := rfl
      have hmem : tagKeyName st ∈ table := hin st (List.mem_cons_self _ _)
      have hlook : lookupOrCreate table (tagKeyName st) = table := by
        unfold lookupOrCreate
        rw [if_pos hmem]
      rw [hstep, hlook]
      exact ih table (fun s' hs' => hin s' (List.mem_cons_of_mem _ hs'))

/-- Closed witness for `tag_cache_one_tag_per_key`: a pass applying the
same style twice over a table already holding one unrelated key yields a
duplicate-free table, and re-applying styles whose keys are present
leaves the table unchanged. -/
theorem tag_cache_one_tag_per_key_witness :
    (["zz".data].Nodup) ∧
    ((applyStylesPass ["zz".data] [⟨1, 2, 3, 4, 5, 6, 7, 8⟩, ⟨1, 2, 3, 4, 5, 6, 7, 8⟩]).Nodup ∧
      (∀ k, k ∈ applyStylesPass ["zz".data]
          [⟨1, 2, 3, 4, 5, 6, 7, 8⟩, ⟨1, 2, 3, 4, 5, 6, 7, 8⟩] ↔
        k ∈ ["zz".data] ∨
          ∃ st ∈ [(⟨1, 2, 3, 4, 5, 6, 7, 8⟩ : SynStyle), ⟨1, 2, 3, 4, 5, 6, 7, 8⟩],
            tagKeyName st = k)) ∧
    (applyStylesPass [tagKeyName ⟨1, 2, 3, 4, 5, 6, 7, 8⟩] [⟨1, 2, 3, 4, 5, 6, 7, 8⟩] =
      [tagKeyName ⟨1, 2, 3, 4, 5, 6, 7, 8⟩]) :=
  ⟨by decide,
    tag_cache_one_tag_per_key.1 ["zz".data]
      [⟨1, 2, 3, 4, 5, 6, 7, 8⟩, ⟨1, 2, 3, 4, 5, 6, 7, 8⟩] (by decide),
    tag_cache_one_tag_per_key.2 [tagKeyName ⟨1, 2, 3, 4, 5, 6, 7, 8⟩]
      [⟨1, 2, 3, 4, 5, 6, 7, 8⟩] (by intro st hst; rcases List.mem_cons.mp hst with rfl | h
                                     · exact List.mem_cons_self _ _
                                     · cases h)⟩
